import Mathlib

/-!
Formal model of the Reward_Manager_System repository.

The two Python modules `reward_system.py` and `reward_manager.py` are
embedded as Lean definitions over exact real arithmetic: Python floats
become `ℝ`, Python ints become `ℤ`/`ℕ`, `math.log(x, b)` becomes
`Real.log x / Real.log b`, `math.log10 x` becomes `Real.logb 10 x`,
Python `int()` truncation becomes `truncInt`, and a raised `ValueError`
becomes an explicit error value returned next to the (unchanged) state.
Python dicts are insertion-ordered association lists; the `deque`
with `maxlen` is a list that drops its oldest elements on overflow.
`math.nan` sentinels inside `arrays()` are modelled by `Option ℝ`
(`none` standing for the not-a-number sentinel).
-/

/-- Truncation toward zero: the behaviour of Python `int()` on a float.
For `x ≥ 0` it is the floor, for `x < 0` it is the ceiling. -/
noncomputable def truncInt (x : ℝ) : ℤ :=
  if x < 0 then -⌊-x⌋ else ⌊x⌋

/-- `class Reward` of `reward_system.py`: one reward term `(rank, param, base)`
with an optional name.  `_raw = param * (base ** rank)` is computed at
construction from exactly these fields, so it is modelled as the derived
function `Reward.raw`. -/
structure Reward where
  rank : ℤ
  param : ℝ
  base : ℤ
  name : Option String

/-- `Reward.raw`: `param * (base ** rank)`. -/
noncomputable def Reward.raw (r : Reward) : ℝ :=
  r.param * (r.base : ℝ) ^ r.rank

/-- `Reward.log`: `sign * math.log(abs(self._raw) + 1, self.base)` where
`sign = -1.0 if self._raw < 0 else 1.0`.  Python's two-argument
`math.log(x, b)` is `log x / log b`. -/
noncomputable def Reward.log (r : Reward) : ℝ :=
  (if r.raw < 0 then (-1 : ℝ) else 1) * (Real.log (|r.raw| + 1) / Real.log (r.base : ℝ))

/-- The `ValueError` raised by `RewardMgr.add` on a duplicate name. -/
inductive AddError where
  | duplicateName (name : String)
deriving DecidableEq

/-- `class RewardMgr` of `reward_system.py`: the per-step aggregate.
`_items` is the list of all terms; `_names` is the Python dict from name
to term, modelled as an insertion-ordered association list with unique
keys. -/
structure RewardMgr where
  base : ℤ
  items : List Reward
  names : List (String × Reward)

/-- `RewardMgr.add`: optional auxiliary scaling
(`param *= (var / max_var) * mul`), then construction of the `Reward`;
a duplicate name raises `ValueError` before any state is mutated, so the
state component of the result is the untouched aggregate in that case. -/
noncomputable def RewardMgr.add (m : RewardMgr) (rank : ℤ) (param : ℝ)
    (var : Option ℝ) (max_var : ℝ) (mul : ℝ) (name : Option String) :
    RewardMgr × Option AddError :=
  let param2 := match var with
    | none => param
    | some v => param * ((v / max_var) * mul)
  let r : Reward := ⟨rank, param2, m.base, name⟩
  match name with
  | some n =>
      if (m.names.lookup n).isSome then
        (m, some (AddError.duplicateName n))
      else
        ({ m with items := m.items ++ [r], names := m.names ++ [(n, r)] }, none)
  | none => ({ m with items := m.items ++ [r] }, none)

/-- The `(rank, param)` decomposition inside `RewardMgr.add_value`:
`rank = max(0, int(math.log10(abs(value) / self.base)) + 1)` and
`param = value / (self.base ** rank)`, with the `abs(value) < 1e-9`
guard mapping to `(0, 0.0)`. -/
noncomputable def decomposeValue (base : ℤ) (value : ℝ) : ℤ × ℝ :=
  if |value| < 1e-9 then (0, 0)
  else
    let rank := max 0 (truncInt (Real.logb 10 (|value| / (base : ℝ))) + 1)
    (rank, value / (base : ℝ) ^ rank)

/-- `RewardMgr.add_value`: decompose, then delegate to `add`. -/
noncomputable def RewardMgr.addValue (m : RewardMgr) (value : ℝ)
    (var : Option ℝ) (max_var : ℝ) (mul : ℝ) (name : Option String) :
    RewardMgr × Option AddError :=
  let rp := decomposeValue m.base value
  m.add rp.1 rp.2 var max_var mul name

/-- The `Reward` object that `add_value value ... name` appends
(auxiliary scaling absent, i.e. `var = None`). -/
noncomputable def valueReward (base : ℤ) (value : ℝ) (name : Option String) : Reward :=
  ⟨(decomposeValue base value).1, (decomposeValue base value).2, base, name⟩

/-- `RewardMgr.total_raw`: `sum(r.raw for r in self._items)`. -/
noncomputable def RewardMgr.total_raw (m : RewardMgr) : ℝ :=
  (m.items.map Reward.raw).sum

/-- `RewardMgr.total_log`: `sum(r.log for r in self._items)`. -/
noncomputable def RewardMgr.total_log (m : RewardMgr) : ℝ :=
  (m.items.map Reward.log).sum

/-- `RewardMgr.__getitem__`: `self._names[name].raw`; a missing name
raises `KeyError`, modelled by `none`. -/
noncomputable def RewardMgr.getValue (m : RewardMgr) (name : String) : Option ℝ :=
  (m.names.lookup name).map Reward.raw

/-- `RewardMgr.clear`: `_items` and `_names` are emptied together. -/
def RewardMgr.clear (m : RewardMgr) : RewardMgr :=
  { m with items := [], names := [] }

/-- One entry of a `RewardTrace` buffer: the dict
`{"raw": ..., "log": ..., "named": {...}}` built by `RewardTrace.push`. -/
structure Snapshot where
  raw : ℝ
  log : ℝ
  named : List (String × ℝ)

/-- `class RewardTrace` of `reward_system.py`: `deque(maxlen=maxlen)`,
oldest snapshot first. -/
structure RewardTrace where
  maxlen : Option ℕ
  buf : List Snapshot

/-- Appending to a `deque`: with a `maxlen`, oldest entries are dropped
from the left once the length exceeds the bound. -/
def RewardTrace.pushSnap (t : RewardTrace) (s : Snapshot) : RewardTrace :=
  match t.maxlen with
  | none => ⟨none, t.buf ++ [s]⟩
  | some n =>
      let b := t.buf ++ [s]
      ⟨some n, b.drop (b.length - n)⟩

/-- The snapshot record `RewardTrace.push` builds from an aggregate:
current totals plus `{k: v.raw for k, v in mgr._names.items()}` — plain
scalars copied out of the aggregate, not references into it. -/
noncomputable def mkSnapshot (m : RewardMgr) : Snapshot :=
  ⟨m.total_raw, m.total_log, m.names.map (fun p => (p.1, (p.2).raw))⟩

/-- `RewardTrace.push`. -/
noncomputable def RewardTrace.push (t : RewardTrace) (m : RewardMgr) : RewardTrace :=
  t.pushSnap (mkSnapshot m)

/-- `RewardTrace.clear`: `self._buf.clear()`. -/
def RewardTrace.clearBuf (t : RewardTrace) : RewardTrace :=
  ⟨t.maxlen, []⟩

/-- Insertion into a Python dict: an existing key keeps its position and
gets the new value, a new key is appended at the end. -/
def dictInsert {β : Type} (d : List (String × β)) (k : String) (x : β) :
    List (String × β) :=
  match d with
  | [] => [(k, x)]
  | (k2, y) :: rest => if k2 = k then (k, x) :: rest else (k2, y) :: dictInsert rest k x

/-- `RewardTrace.arrays`: empty dict for an empty buffer; otherwise the
dict literal `{"raw": [...], "log": [...], **{k: [...] for k in keys}}`
with `keys` the names of the most recent snapshot, built left to right
(so a name colliding with `"raw"`/`"log"` overwrites that entry).
`r["named"].get(k, math.nan)` becomes `List.lookup` into the snapshot,
with `none` as the NaN sentinel. -/
noncomputable def RewardTrace.arrays (t : RewardTrace) : List (String × List (Option ℝ)) :=
  match t.buf.getLast? with
  | none => []
  | some last =>
      let d0 := dictInsert [] "raw" (t.buf.map (fun sn => some sn.raw))
      let d1 := dictInsert d0 "log" (t.buf.map (fun sn => some sn.log))
      (last.named.map Prod.fst).foldl
        (fun d k => dictInsert d k (t.buf.map (fun sn => sn.named.lookup k))) d1

/-- The union `all_names` of names over all snapshots, listed once each in
first-seen order.  The source stores this union in a Python `set` and then
iterates over it; `set` iteration visits each element exactly once but in
an order that the buffered data does not determine (string hashing is
randomized per process), so operations that iterate the union take the
visiting order as an explicit parameter ranging over the permutations of
this list. -/
def RewardTrace.allNames (t : RewardTrace) : List String :=
  (t.buf.flatMap (fun sn => sn.named.map Prod.fst)).dedup

/-- The inner accumulation of `to_reward_mgr`:
`total += rec["named"].get(name, 0.0)` over the whole buffer. -/
noncomputable def RewardTrace.nameTotal (t : RewardTrace) (name : String) : ℝ :=
  t.buf.foldl (fun acc sn => acc + ((sn.named.lookup name).getD 0)) 0

/-- The per-name arithmetic mean `total / n_steps` used by `to_reward_mgr`
(absent names contribute `0`). -/
noncomputable def RewardTrace.nameMean (t : RewardTrace) (name : String) : ℝ :=
  t.nameTotal name / (t.buf.length : ℝ)

/-- `RewardTrace.to_reward_mgr`: an empty buffer yields the fresh empty
aggregate; otherwise `add_value(total / n_steps, name=name)` is called for
each name of the union, visited in the `set` iteration order `order`. -/
noncomputable def RewardTrace.toRewardMgr (t : RewardTrace) (base : ℤ)
    (order : List String) : RewardMgr :=
  if t.buf.isEmpty then ⟨base, [], []⟩
  else
    order.foldl
      (fun m name =>
        (m.addValue (t.nameTotal name / (t.buf.length : ℝ)) none 1 1.5 (some name)).1)
      ⟨base, [], []⟩

/-- `RewardTrace.compress_into`: push the compressed aggregate into
`target` and return `self`; the result pair is
(source after the call, target after the call). -/
noncomputable def RewardTrace.compressInto (t : RewardTrace) (target : RewardTrace)
    (base : ℤ) (order : List String) : RewardTrace × RewardTrace :=
  (t, target.push (t.toRewardMgr base order))

/-- `class PriorityReward` of `reward_manager.py`.  Its `__init__` stores
the three fields without any validation. -/
structure PriorityReward where
  rank : ℤ
  param : ℝ
  base : ℤ

/-- `PriorityReward.raw_value`: `param * (base ** rank)`. -/
noncomputable def PriorityReward.raw_value (p : PriorityReward) : ℝ :=
  p.param * (p.base : ℝ) ^ p.rank

/-- `PriorityReward.log_value`: returns `0.0` when `abs(raw) < 1e-9`,
otherwise `sign * math.log10(abs(raw) + 1)` with
`sign = 1 if raw >= 0 else -1`.  Note the fixed base-10 logarithm. -/
noncomputable def PriorityReward.log_value (p : PriorityReward) : ℝ :=
  if |p.raw_value| < 1e-9 then 0
  else (if 0 ≤ p.raw_value then (1 : ℝ) else -1) * (Real.log (|p.raw_value| + 1) / Real.log 10)

/-- `class RewardManager` of `reward_manager.py` (no name registry,
no duplicate check). -/
structure RewardManager where
  base : ℤ
  rewards : List PriorityReward

/-- `RewardManager.add_reward` with its optional scaling
`final_param = param * ((associated_var / max_var_value) * multiplier)`. -/
noncomputable def RewardManager.add_reward (m : RewardManager) (rank : ℤ) (param : ℝ)
    (associated_var : Option ℝ) (max_var_value : ℝ) (multiplier : ℝ) : RewardManager :=
  match associated_var with
  | none => { m with rewards := m.rewards ++ [⟨rank, param, m.base⟩] }
  | some v =>
      { m with rewards := m.rewards ++ [⟨rank, param * ((v / max_var_value) * multiplier), m.base⟩] }

/-- The decomposition inside `RewardManager.add_value`:
`rank = max(0, int(math.log10(abs_value / self.base) + 1))` — note that
unlike `RewardMgr.add_value` the `+ 1` sits inside the `int()` call. -/
noncomputable def decomposeValueMgr (base : ℤ) (value : ℝ) : ℤ × ℝ :=
  if |value| < 1e-9 then (0, 0)
  else
    let rank := max 0 (truncInt (Real.logb 10 (|value| / (base : ℝ)) + 1))
    (rank, value / (base : ℝ) ^ rank)

/-- `RewardManager.add_value`. -/
noncomputable def RewardManager.add_value (m : RewardManager) (value : ℝ)
    (associated_var : Option ℝ) (max_var_value : ℝ) (multiplier : ℝ) : RewardManager :=
  let rp := decomposeValueMgr m.base value
  m.add_reward rp.1 rp.2 associated_var max_var_value multiplier

/-- The mutations a caller can apply to a `RewardMgr` after a push:
`add`, `add_value` (either may fail on a duplicate name, in which case
the aggregate is left as it was) and `clear`. -/
inductive MgrOp where
  | addOp (rank : ℤ) (param : ℝ) (var : Option ℝ) (max_var mul : ℝ) (name : Option String)
  | addValueOp (value : ℝ) (var : Option ℝ) (max_var mul : ℝ) (name : Option String)
  | clearOp

/-- Effect of one mutation on the aggregate. -/
noncomputable def applyMgrOp (m : RewardMgr) : MgrOp → RewardMgr
  | MgrOp.addOp r p v mv mu n => (m.add r p v mv mu n).1
  | MgrOp.addValueOp val v mv mu n => (m.addValue val v mv mu n).1
  | MgrOp.clearOp => m.clear

/-! ## Helper lemmas about association lists and folds -/

theorem lookup_cons_self {β : Type} (a : String) (v : β) (l : List (String × β)) :
    List.lookup a ((a, v) :: l) = some v := by
  simp [List.lookup]

theorem lookup_cons_ne {β : Type} (a k : String) (v : β) (l : List (String × β))
    (h : k ≠ a) : List.lookup a ((k, v) :: l) = List.lookup a l := by
  have hbe : (a == k) = false := by
    cases hbe : a == k
    · rfl
    · exact absurd (eq_of_beq hbe).symm h
  simp [List.lookup, hbe]

theorem lookup_append_of_none {β : Type} (a : String) (l1 l2 : List (String × β))
    (h : List.lookup a l1 = none) : List.lookup a (l1 ++ l2) = List.lookup a l2 := by
  induction l1 with
  | nil => rfl
  | cons p rest ih =>
      obtain ⟨k, v⟩ := p
      by_cases hk : k = a
      · subst hk; rw [lookup_cons_self] at h; cases h
      · rw [List.cons_append, lookup_cons_ne _ _ _ _ hk]
        rw [lookup_cons_ne _ _ _ _ hk] at h
        exact ih h

theorem lookup_map_self {β : Type} (f : String → β) (l : List String) (a : String)
    (h : a ∈ l) : List.lookup a (l.map (fun n => (n, f n))) = some (f a) := by
  induction l with
  | nil => cases h
  | cons n rest ih =>
      by_cases hn : n = a
      · subst hn; simp [lookup_cons_self]
      · rw [List.map_cons, lookup_cons_ne _ _ _ _ hn]
        rcases List.mem_cons.mp h with h1 | h1
        · exact absurd h1.symm hn
        · exact ih h1

theorem lookup_map_self_none {β : Type} (f : String → β) (l : List String) (a : String)
    (h : a ∉ l) : List.lookup a (l.map (fun n => (n, f n))) = none := by
  induction l with
  | nil => rfl
  | cons n rest ih =>
      have hn : n ≠ a := fun hn => h (by simp [hn])
      rw [List.map_cons, lookup_cons_ne _ _ _ _ hn]
      exact ih (fun hm => h (List.mem_cons_of_mem n hm))

theorem foldl_add_eq_sum {α : Type} (f : α → ℝ) (l : List α) (a : ℝ) :
    l.foldl (fun acc x => acc + f x) a = a + (l.map f).sum := by
  induction l generalizing a with
  | nil => simp
  | cons x rest ih => simp [ih, add_assoc]

theorem lookup_dictInsert_self {β : Type} (d : List (String × β)) (k : String) (x : β) :
    List.lookup k (dictInsert d k x) = some x := by
  induction d with
  | nil => simp [dictInsert, lookup_cons_self]
  | cons p rest ih =>
      obtain ⟨k2, y⟩ := p
      by_cases h : k2 = k
      · simp [dictInsert, h, lookup_cons_self]
      · simp only [dictInsert, if_neg h]
        rw [lookup_cons_ne _ _ _ _ h]
        exact ih

theorem lookup_dictInsert_other {β : Type} (d : List (String × β)) (k a : String) (x : β)
    (h : a ≠ k) : List.lookup a (dictInsert d k x) = List.lookup a d := by
  induction d with
  | nil =>
      show List.lookup a [(k, x)] = List.lookup a []
      rw [lookup_cons_ne _ _ _ _ (Ne.symm h)]
  | cons p rest ih =>
      obtain ⟨k2, y⟩ := p
      by_cases h2 : k2 = k
      · have hstep : dictInsert ((k2, y) :: rest) k x = (k, x) :: rest := by
          simp [dictInsert, h2]
        subst h2
        rw [hstep, lookup_cons_ne _ _ _ _ (Ne.symm h), lookup_cons_ne _ _ _ _ (Ne.symm h)]
      · have hstep : dictInsert ((k2, y) :: rest) k x = (k2, y) :: dictInsert rest k x := by
          simp [dictInsert, h2]
        rw [hstep]
        by_cases h3 : k2 = a
        · subst h3; rw [lookup_cons_self, lookup_cons_self]
        · rw [lookup_cons_ne _ _ _ _ h3, lookup_cons_ne _ _ _ _ h3]
          exact ih

theorem lookup_foldl_dictInsert_not_mem {β : Type} (f : String → β) (keys : List String)
    (d : List (String × β)) (a : String) (h : a ∉ keys) :
    List.lookup a (keys.foldl (fun d k => dictInsert d k (f k)) d) = List.lookup a d := by
  induction keys generalizing d with
  | nil => rfl
  | cons k rest ih =>
      rw [List.foldl_cons]
      rw [ih _ (fun hm => h (List.mem_cons_of_mem k hm))]
      exact lookup_dictInsert_other _ _ _ _ (fun ha => h (ha ▸ List.mem_cons_self k rest))

theorem lookup_foldl_dictInsert_mem {β : Type} (f : String → β) (keys : List String)
    (d : List (String × β)) (a : String) (h : a ∈ keys) :
    List.lookup a (keys.foldl (fun d k => dictInsert d k (f k)) d) = some (f a) := by
  induction keys generalizing d with
  | nil => cases h
  | cons k rest ih =>
      rw [List.foldl_cons]
      by_cases hm : a ∈ rest
      · exact ih _ hm
      · have ha : a = k := by
          rcases List.mem_cons.mp h with h1 | h1
          · exact h1
          · exact absurd h1 hm
        subst ha
        rw [lookup_foldl_dictInsert_not_mem _ _ _ _ hm]
        exact lookup_dictInsert_self _ _ _

theorem lookup_isSome_iff_mem_keys {β : Type} (l : List (String × β)) (a : String) :
    (List.lookup a l).isSome = true ↔ a ∈ l.map Prod.fst := by
  induction l with
  | nil => simp [List.lookup]
  | cons p rest ih =>
      obtain ⟨k, v⟩ := p
      by_cases h : k = a
      · subst h; simp [lookup_cons_self]
      · rw [lookup_cons_ne _ _ _ _ h]
        simp only [List.map_cons, List.mem_cons, ih]
        constructor
        · exact fun hm => Or.inr hm
        · rintro (h1 | h1)
          · exact absurd h1.symm h
          · exact h1

/-! ## Behaviour of `add` / `add_value` on a fresh name -/

theorem add_fresh (m : RewardMgr) (rank : ℤ) (param : ℝ) (mv mul : ℝ) (n : String)
    (h : List.lookup n m.names = none) :
    m.add rank param none mv mul (some n) =
      ({ base := m.base, items := m.items ++ [⟨rank, param, m.base, some n⟩],
         names := m.names ++ [(n, ⟨rank, param, m.base, some n⟩)] }, none) := by
  simp [RewardMgr.add, h]

theorem addValue_fresh (m : RewardMgr) (v : ℝ) (mv mul : ℝ) (n : String)
    (h : List.lookup n m.names = none) :
    m.addValue v none mv mul (some n) =
      ({ base := m.base, items := m.items ++ [valueReward m.base v (some n)],
         names := m.names ++ [(n, valueReward m.base v (some n))] }, none) := by
  unfold RewardMgr.addValue valueReward
  exact add_fresh m _ _ mv mul n h

theorem valueReward_raw (base : ℤ) (v : ℝ) (nm : Option String) (hb : 2 ≤ base) :
    (valueReward base v nm).raw = if |v| < 1e-9 then 0 else v := by
  have hb0 : (base : ℝ) ≠ 0 := by
    have h2 : (2 : ℝ) ≤ (base : ℝ) := by exact_mod_cast hb
    linarith
  by_cases h : |v| < 1e-9
  · simp [valueReward, Reward.raw, decomposeValue, h]
  · simp only [valueReward, Reward.raw, decomposeValue, if_neg h]
    exact div_mul_cancel₀ v (zpow_ne_zero _ hb0)

theorem foldl_addValue_fresh (g : String → ℝ) (names : List String) (m : RewardMgr)
    (hnd : names.Nodup) (hfresh : ∀ n ∈ names, List.lookup n m.names = none) :
    (names.foldl (fun m2 name => (m2.addValue (g name) none 1 1.5 (some name)).1) m).base
      = m.base ∧
    (names.foldl (fun m2 name => (m2.addValue (g name) none 1 1.5 (some name)).1) m).items
      = m.items ++ names.map (fun n => valueReward m.base (g n) (some n)) ∧
    (names.foldl (fun m2 name => (m2.addValue (g name) none 1 1.5 (some name)).1) m).names
      = m.names ++ names.map (fun n => (n, valueReward m.base (g n) (some n))) := by
  induction names generalizing m with
  | nil => simp
  | cons n0 rest ih =>
      have h0 : List.lookup n0 m.names = none := hfresh n0 (List.mem_cons_self n0 rest)
      have hne : ∀ n ∈ rest, n ≠ n0 := by
        intro n hn he
        subst he
        exact (List.nodup_cons.mp hnd).1 hn
      have hfresh1 : ∀ n ∈ rest,
          List.lookup n (m.names ++ [(n0, valueReward m.base (g n0) (some n0))]) = none := by
        intro n hn
        rw [lookup_append_of_none n m.names _ (hfresh n (List.mem_cons_of_mem n0 hn))]
        rw [lookup_cons_ne _ _ _ _ (Ne.symm (hne n hn))]
        rfl
      have hmain := ih { base := m.base, items := m.items ++ [valueReward m.base (g n0) (some n0)],
                         names := m.names ++ [(n0, valueReward m.base (g n0) (some n0))] }
        (List.nodup_cons.mp hnd).2 hfresh1
      rw [List.foldl_cons, addValue_fresh m (g n0) 1 1.5 n0 h0]
      refine ⟨hmain.1, ?_, ?_⟩
      · rw [hmain.2.1]
        simp [List.append_assoc]
      · rw [hmain.2.2]
        simp [List.append_assoc]

/-! ## Behaviour of the deque under repeated pushes -/

theorem foldl_pushSnap_unbounded (l : List Snapshot) (b : List Snapshot) :
    (l.foldl RewardTrace.pushSnap ⟨none, b⟩) = ⟨none, b ++ l⟩ := by
  induction l generalizing b with
  | nil => simp
  | cons s rest ih =>
      rw [List.foldl_cons]
      show (rest.foldl RewardTrace.pushSnap ⟨none, b ++ [s]⟩) = _
      rw [ih]
      simp

theorem foldl_pushSnap_bounded (N : ℕ) (l : List Snapshot) (b : List Snapshot)
    (hb : b.length ≤ N) :
    (l.foldl RewardTrace.pushSnap ⟨some N, b⟩)
      = ⟨some N, (b ++ l).drop ((b ++ l).length - N)⟩ := by
  induction l generalizing b with
  | nil =>
      simp only [List.foldl_nil, List.append_nil]
      rw [Nat.sub_eq_zero_of_le hb, List.drop_zero]
  | cons s rest ih =>
      rw [List.foldl_cons]
      have hstep : RewardTrace.pushSnap ⟨some N, b⟩ s
          = ⟨some N, (b ++ [s]).drop ((b ++ [s]).length - N)⟩ := rfl
      rw [hstep]
      have hlen : ((b ++ [s]).drop ((b ++ [s]).length - N)).length ≤ N := by
        rw [List.length_drop]
        omega
      rw [ih _ hlen]
      have hle : (b ++ [s]).length - N ≤ (b ++ [s]).length := Nat.sub_le _ _
      rw [← List.drop_append_of_le_length hle, List.drop_drop]
      rw [List.append_cons b s rest]
      congr 1
      have hidx : (b ++ [s]).length - N
            + ((List.drop ((b ++ [s]).length - N) (b ++ [s] ++ rest)).length - N)
          = (b ++ [s] ++ rest).length - N := by
        simp only [List.length_drop, List.length_append, List.length_cons, List.length_nil]
        omega
      rw [hidx]

/-! ## Claim theorems -/

/-- C5: adding under a name already registered in the aggregate — whether
through `add` or through `add_value` — fails with the duplicate-name error
and returns the aggregate completely unchanged (same items, totals and
name registry), all-or-nothing. -/
theorem add_duplicate_name_rejected (m : RewardMgr) (rank : ℤ) (param : ℝ)
    (var : Option ℝ) (mv mul v : ℝ) (n : String)
    (h : (List.lookup n m.names).isSome = true) :
    m.add rank param var mv mul (some n) = (m, some (AddError.duplicateName n)) ∧
    m.addValue v var mv mul (some n) = (m, some (AddError.duplicateName n)) := by
  constructor
  · simp [RewardMgr.add, h]
  · simp [RewardMgr.addValue, RewardMgr.add, h]

/-- Witness for `add_duplicate_name_rejected`: a concrete aggregate that
already contains the name `"a"`. -/
theorem add_duplicate_name_rejected_witness :
    (List.lookup "a" [("a", (⟨0, 0, 10, some "a"⟩ : Reward))]).isSome = true ∧
    RewardMgr.add ⟨10, [⟨0, 0, 10, some "a"⟩], [("a", ⟨0, 0, 10, some "a"⟩)]⟩
        1 2 none 1 1.5 (some "a")
      = (⟨10, [⟨0, 0, 10, some "a"⟩], [("a", ⟨0, 0, 10, some "a"⟩)]⟩,
         some (AddError.duplicateName "a")) :=
  ⟨rfl, (add_duplicate_name_rejected
      ⟨10, [⟨0, 0, 10, some "a"⟩], [("a", ⟨0, 0, 10, some "a"⟩)]⟩
      1 2 none 1 1.5 3 "a" rfl).1⟩

/-- C6 counterexample: a base smaller than 2 is not rejected anywhere —
`add` on an aggregate with base 1 succeeds with no error and produces a
term with the perfectly well-defined raw value 3 (the claimed `InvalidBase`
rejection does not exist in the code). -/
theorem invalid_base_not_rejected :
    RewardMgr.add ⟨1, [], []⟩ 2 3 none 1 1.5 none
      = (⟨1, [⟨2, 3, 1, none⟩], []⟩, none) ∧
    Reward.raw ⟨2, 3, 1, none⟩ = 3 := by
  constructor
  · rfl
  · simp [Reward.raw]

/-- C6 amended: neither module validates the base.  For every base < 2
(with rank ≥ 0, where Python's `base ** rank` is defined for any integer
base) construction succeeds silently in both `RewardMgr.add` and
`RewardManager.add_reward`, and the raw value is still
`param * base ^ rank`; no error is reported at this interface. -/
theorem base_lt_two_accepted (rank : ℤ) (param : ℝ) (base : ℤ)
    (_hb : base < 2) (_hr : 0 ≤ rank) :
    (RewardMgr.add ⟨base, [], []⟩ rank param none 1 1.5 none).2 = none ∧
    (RewardMgr.add ⟨base, [], []⟩ rank param none 1 1.5 none).1.items
      = [⟨rank, param, base, none⟩] ∧
    Reward.raw ⟨rank, param, base, none⟩ = param * (base : ℝ) ^ rank ∧
    (RewardManager.add_reward ⟨base, []⟩ rank param none 1 1).rewards
      = [⟨rank, param, base⟩] ∧
    PriorityReward.raw_value ⟨rank, param, base⟩ = param * (base : ℝ) ^ rank :=
  ⟨rfl, rfl, rfl, rfl, rfl⟩

/-- Witness for `base_lt_two_accepted` at base 1, rank 2. -/
theorem base_lt_two_accepted_witness :
    (1 : ℤ) < 2 ∧ (0 : ℤ) ≤ 2 ∧
    (RewardMgr.add ⟨1, [], []⟩ 2 3 none 1 1.5 none).2 = none :=
  ⟨by decide, by decide, (base_lt_two_accepted 2 3 1 (by decide) (by decide)).1⟩

/-- C9: a snapshot is captured by value.  After `push`, applying any
sequence of mutations (`add`, `add_value`, `clear`) to the originating
aggregate leaves the trace — hence every already-pushed snapshot — exactly
as it was; and the snapshot just pushed consists of the totals and the
name-to-raw copies read off the aggregate at push time. -/
theorem push_decouples_from_later_mutation (m : RewardMgr) (t : RewardTrace)
    (ops : List MgrOp) :
    (ops.foldl (fun w op => (applyMgrOp w.1 op, w.2)) (m, t.push m)).2 = t.push m ∧
    (t.maxlen = none → (t.push m).buf.getLast?
        = some ⟨m.total_raw, m.total_log, m.names.map (fun p => (p.1, (p.2).raw))⟩) := by
  constructor
  · have hgen : ∀ (ops2 : List MgrOp) (w : RewardMgr × RewardTrace),
        (ops2.foldl (fun w op => (applyMgrOp w.1 op, w.2)) w).2 = w.2 := by
      intro ops2
      induction ops2 with
      | nil => intro w; rfl
      | cons op rest ih =>
          intro w
          rw [List.foldl_cons]
          exact ih _
    exact hgen ops (m, t.push m)
  · intro hml
    have hpush : t.push m = ⟨none, t.buf ++ [mkSnapshot m]⟩ := by
      unfold RewardTrace.push RewardTrace.pushSnap
      rw [hml]
    rw [hpush]
    exact List.getLast?_concat _

/-- Witness for `push_decouples_from_later_mutation`: a concrete clear
after a push on an unbounded trace. -/
theorem push_decouples_from_later_mutation_witness :
    ([MgrOp.clearOp].foldl (fun w op => (applyMgrOp w.1 op, w.2))
        ((⟨10, [], []⟩ : RewardMgr), RewardTrace.push ⟨none, []⟩ ⟨10, [], []⟩)).2
      = RewardTrace.push ⟨none, []⟩ ⟨10, [], []⟩ ∧
    (RewardTrace.push ⟨none, []⟩ ⟨10, [], []⟩).buf.getLast?
      = some ⟨RewardMgr.total_raw ⟨10, [], []⟩, RewardMgr.total_log ⟨10, [], []⟩, []⟩ :=
  ⟨(push_decouples_from_later_mutation ⟨10, [], []⟩ ⟨none, []⟩ [MgrOp.clearOp]).1,
   (push_decouples_from_later_mutation ⟨10, [], []⟩ ⟨none, []⟩ [MgrOp.clearOp]).2 rfl⟩

/-- C10: `compress_into target` returns the source trace unchanged (its
buffer is neither cleared nor modified) and pushes exactly one snapshot —
that of the aggregate produced by `to_reward_mgr` — onto the target: an
unbounded target grows by exactly one, a bounded target at or below its
capacity N grows to `min (length + 1) N` with eviction from the front. -/
theorem compressInto_pushes_one_snapshot (t target : RewardTrace) (base : ℤ)
    (order : List String) :
    (t.compressInto target base order).1 = t ∧
    (target.maxlen = none →
      (t.compressInto target base order).2
        = ⟨none, target.buf ++ [mkSnapshot (t.toRewardMgr base order)]⟩) ∧
    (∀ N : ℕ, target.maxlen = some N → target.buf.length ≤ N →
      (t.compressInto target base order).2.buf
          = (target.buf ++ [mkSnapshot (t.toRewardMgr base order)]).drop
              (target.buf.length + 1 - N) ∧
      (t.compressInto target base order).2.buf.length
          = min (target.buf.length + 1) N) := by
  refine ⟨rfl, ?_, ?_⟩
  · intro hml
    show target.push (t.toRewardMgr base order) = _
    unfold RewardTrace.push RewardTrace.pushSnap
    rw [hml]
  · intro N hml hle
    have hpush : (t.compressInto target base order).2
        = ⟨some N, (target.buf ++ [mkSnapshot (t.toRewardMgr base order)]).drop
            ((target.buf ++ [mkSnapshot (t.toRewardMgr base order)]).length - N)⟩ := by
      show target.push (t.toRewardMgr base order) = _
      unfold RewardTrace.push RewardTrace.pushSnap
      rw [hml]
    rw [hpush]
    constructor
    · simp [List.length_append]
    · simp only [List.length_drop, List.length_append, List.length_cons, List.length_nil]
      omega

/-- Witness for `compressInto_pushes_one_snapshot` on concrete unbounded
source and target traces. -/
theorem compressInto_pushes_one_snapshot_witness :
    (RewardTrace.compressInto ⟨none, []⟩ ⟨none, []⟩ 10 []).1 = ⟨none, []⟩ ∧
    (RewardTrace.compressInto ⟨none, []⟩ ⟨none, []⟩ 10 []).2
      = ⟨none, [] ++ [mkSnapshot (RewardTrace.toRewardMgr ⟨none, []⟩ 10 [])]⟩ :=
  ⟨(compressInto_pushes_one_snapshot ⟨none, []⟩ ⟨none, []⟩ 10 []).1,
   (compressInto_pushes_one_snapshot ⟨none, []⟩ ⟨none, []⟩ 10 []).2.1 rfl⟩

/-- C7: pushing N+1 aggregates into a freshly created trace bounded at
N ≥ 1 leaves exactly N snapshots — those of the 2nd through (N+1)th
pushed aggregates, in order (strict FIFO eviction of the oldest) — while
an unbounded trace never evicts anything. -/
theorem bounded_trace_fifo (N : ℕ) (hN : 1 ≤ N) (mgrs : List RewardMgr)
    (hlen : mgrs.length = N + 1) :
    (mgrs.foldl RewardTrace.push ⟨some N, []⟩).buf = (mgrs.map mkSnapshot).drop 1 ∧
    (mgrs.foldl RewardTrace.push ⟨some N, []⟩).buf.length = N ∧
    (∀ (t : RewardTrace) (ms : List RewardMgr), t.maxlen = none →
      (ms.foldl RewardTrace.push t).buf = t.buf ++ ms.map mkSnapshot) := by
  have hfold : mgrs.foldl RewardTrace.push (⟨some N, []⟩ : RewardTrace)
      = (mgrs.map mkSnapshot).foldl RewardTrace.pushSnap ⟨some N, []⟩ := by
    rw [List.foldl_map]
    rfl
  have hml : (mgrs.map mkSnapshot).length = N + 1 := by
    rw [List.length_map, hlen]
  have hb := foldl_pushSnap_bounded N (mgrs.map mkSnapshot) [] (by simp)
  have hbuf : (mgrs.foldl RewardTrace.push ⟨some N, []⟩).buf
      = (mgrs.map mkSnapshot).drop 1 := by
    rw [hfold, hb]
    simp only [List.nil_append]
    rw [hml]
    congr 1
    omega
  refine ⟨hbuf, ?_, ?_⟩
  · rw [hbuf, List.length_drop, hml]
    omega
  · intro t ms hml2
    obtain ⟨ml, buf⟩ := t
    simp only at hml2
    subst hml2
    have hfold2 : ms.foldl RewardTrace.push (⟨none, buf⟩ : RewardTrace)
        = (ms.map mkSnapshot).foldl RewardTrace.pushSnap ⟨none, buf⟩ := by
      rw [List.foldl_map]
      rfl
    rw [hfold2, foldl_pushSnap_unbounded]

/-- Witness for `bounded_trace_fifo`: two pushes into a trace bounded
at one. -/
theorem bounded_trace_fifo_witness :
    1 ≤ 1 ∧ ([(⟨10, [], []⟩ : RewardMgr), ⟨10, [], []⟩].length = 1 + 1) ∧
    (([(⟨10, [], []⟩ : RewardMgr), ⟨10, [], []⟩].foldl RewardTrace.push
        ⟨some 1, []⟩).buf.length = 1) :=
  ⟨by decide, rfl,
   (bounded_trace_fifo 1 (by decide) [⟨10, [], []⟩, ⟨10, [], []⟩] rfl).2.1⟩

/-- C2: round-trip through `add_value`.  With no auxiliary variable and no
name, `add_value v` succeeds and appends exactly the decomposed term; for
`|v| ≥ 1e-9` that term's raw value reproduces `v` exactly (in real
arithmetic, i.e. up to floating rounding), and for `|v| < 1e-9` the term
is `(rank, param) = (0, 0)` with raw value 0. -/
theorem addValue_roundtrip (m : RewardMgr) (v : ℝ) (hb : 2 ≤ m.base) :
    (m.addValue v none 1 1.5 none).2 = none ∧
    (m.addValue v none 1 1.5 none).1.items = m.items ++ [valueReward m.base v none] ∧
    (1e-9 ≤ |v| → (valueReward m.base v none).raw = v) ∧
    (|v| < 1e-9 → (valueReward m.base v none).rank = 0 ∧
        (valueReward m.base v none).param = 0 ∧ (valueReward m.base v none).raw = 0) := by
  refine ⟨rfl, rfl, ?_, ?_⟩
  · intro hv
    rw [valueReward_raw m.base v none hb, if_neg (not_lt.mpr hv)]
  · intro hv
    refine ⟨?_, ?_, ?_⟩
    · simp [valueReward, decomposeValue, hv]
    · simp [valueReward, decomposeValue, hv]
    · rw [valueReward_raw m.base v none hb, if_pos hv]

/-- Witness for `addValue_roundtrip` at base 10 and `v = 5`. -/
theorem addValue_roundtrip_witness :
    2 ≤ (10 : ℤ) ∧ (1e-9 : ℝ) ≤ |(5 : ℝ)| ∧
    (valueReward 10 5 none).raw = 5 :=
  ⟨by decide, by norm_num,
   (addValue_roundtrip ⟨10, [], []⟩ 5 (by decide)).2.2.1 (by norm_num)⟩

/-- C3 counterexample: for `PriorityReward` (reward_manager.py) the log is
not taken in the value's own base.  At `(rank, param, base) = (0, 1, 2)`
the raw value is 1; the claimed base-relative result would be
`logb 2 (1 + 1) = 1`, but `log_value` returns `logb 10 2 < 1`. -/
theorem log_value_not_base_relative :
    PriorityReward.raw_value ⟨0, 1, 2⟩ = 1 ∧
    PriorityReward.log_value ⟨0, 1, 2⟩ ≠
      (if PriorityReward.raw_value ⟨0, 1, 2⟩ < 0 then -1 else 1) *
        Real.logb 2 (|PriorityReward.raw_value ⟨0, 1, 2⟩| + 1) := by
  have hraw : PriorityReward.raw_value ⟨0, 1, 2⟩ = 1 := by
    simp [PriorityReward.raw_value]
  refine ⟨hraw, ?_⟩
  rw [hraw]
  have hvl : PriorityReward.log_value ⟨0, 1, 2⟩ = Real.logb 10 2 := by
    simp only [PriorityReward.log_value, hraw, Real.log_div_log]
    rw [if_neg (by norm_num), if_pos (by norm_num)]
    norm_num
  rw [hvl]
  have h1 : Real.logb 10 2 < 1 := by
    have h := Real.logb_lt_logb (b := 10) (by norm_num)
      (by norm_num : (0:ℝ) < 2) (by norm_num : (2:ℝ) < 10)
    rwa [Real.logb_self_eq_one (by norm_num)] at h
  have h2 : (if (1:ℝ) < 0 then (-1:ℝ) else 1) * Real.logb 2 (|(1:ℝ)| + 1) = 1 := by
    rw [if_neg (by norm_num)]
    rw [show |(1:ℝ)| + 1 = 2 by norm_num]
    rw [Real.logb_self_eq_one (by norm_num)]
    norm_num
  rw [h2]
  exact ne_of_lt h1

/-- C3 amended: the two log implementations differ.  `Reward.log`
(reward_system.py) is base-relative and sign-preserving with no epsilon
cutoff: for base ≥ 2 it equals `sign · logb base (|raw| + 1)` and is zero
exactly when `raw = 0` (so sub-1e-9 raw values give a nonzero log).
`PriorityReward.log_value` (reward_manager.py) uses the fixed base-10
logarithm for every base, with an exact zero cutoff when `|raw| < 1e-9`. -/
theorem log_functions_characterized :
    (∀ r : Reward, 2 ≤ r.base →
      (r.log = (if r.raw < 0 then -1 else 1) * Real.logb (r.base : ℝ) (|r.raw| + 1) ∧
       (r.log = 0 ↔ r.raw = 0))) ∧
    (∀ p : PriorityReward,
      p.log_value = if |p.raw_value| < 1e-9 then 0
        else (if 0 ≤ p.raw_value then 1 else -1) * Real.logb 10 (|p.raw_value| + 1)) := by
  constructor
  · intro r hb
    have hb2 : (2 : ℝ) ≤ (r.base : ℝ) := by exact_mod_cast hb
    have heq : r.log
        = (if r.raw < 0 then (-1:ℝ) else 1) * Real.logb (r.base : ℝ) (|r.raw| + 1) := by
      simp only [Reward.log, Real.log_div_log]
    refine ⟨heq, ?_⟩
    rw [heq]
    constructor
    · intro h0
      rcases mul_eq_zero.mp h0 with hs | hl
      · by_cases hneg : r.raw < 0 <;> simp [hneg] at hs
      · rcases Real.logb_eq_zero.mp hl with h | h | h | h | h | h
        · linarith
        · linarith
        · linarith
        · have := abs_nonneg r.raw
          linarith
        · have habs : |r.raw| = 0 := by linarith
          exact abs_eq_zero.mp habs
        · have := abs_nonneg r.raw
          linarith
    · intro h0
      rw [h0]
      simp [Real.logb]
  · intro p
    simp only [PriorityReward.log_value, Real.log_div_log]

/-- Witness for `log_functions_characterized` at a concrete base-10
term with raw value 1. -/
theorem log_functions_characterized_witness :
    2 ≤ (10 : ℤ) ∧
    (Reward.log ⟨0, 1, 10, none⟩ =
      (if Reward.raw ⟨0, 1, 10, none⟩ < 0 then -1 else 1) *
        Real.logb (((10 : ℤ) : ℝ)) (|Reward.raw ⟨0, 1, 10, none⟩| + 1) ∧
     (Reward.log ⟨0, 1, 10, none⟩ = 0 ↔ Reward.raw ⟨0, 1, 10, none⟩ = 0)) :=
  ⟨by decide, log_functions_characterized.1 ⟨0, 1, 10, none⟩ (by decide)⟩

/-- C4 counterexample: `add_value` computes its rank with
`int(math.log10(...))` — a fixed base-10 logarithm truncated toward zero —
not with `floor(log_base(...))`.  At base 2 and value 8 the code produces
rank 1 while the claimed formula gives rank 3. -/
theorem rank_formula_counterexample :
    (decomposeValue 2 8).1 = 1 ∧
    max 0 (⌊Real.logb ((2 : ℤ) : ℝ) (|(8 : ℝ)| / ((2 : ℤ) : ℝ))⌋ + 1) = 3 := by
  have hc : ((2 : ℤ) : ℝ) = 2 := by norm_num
  have harg : |(8:ℝ)| / ((2:ℤ):ℝ) = 4 := by
    rw [hc]
    norm_num
  constructor
  · have h8 : ¬(|(8:ℝ)| < 1e-9) := by norm_num
    have h0 : (0:ℝ) ≤ Real.logb 10 4 := Real.logb_nonneg (by norm_num) (by norm_num)
    have h1 : Real.logb 10 4 < 1 := by
      have h := Real.logb_lt_logb (b := 10) (by norm_num)
        (by norm_num : (0:ℝ) < 4) (by norm_num : (4:ℝ) < 10)
      rwa [Real.logb_self_eq_one (by norm_num)] at h
    have htr : truncInt (Real.logb 10 4) = 0 := by
      rw [truncInt, if_neg (not_lt.mpr h0), Int.floor_eq_zero_iff]
      exact ⟨h0, h1⟩
    show (decomposeValue 2 8).1 = 1
    simp only [decomposeValue, if_neg h8, harg, htr]
    decide
  · rw [harg, hc]
    have h4 : (4:ℝ) = 2 ^ (2:ℕ) := by norm_num
    have hl : Real.logb 2 4 = 2 := by
      rw [h4, Real.logb_pow, Real.logb_self_eq_one (by norm_num)]
      norm_num
    rw [hl]
    norm_num

/-- C4 amended: for `|v| ≥ 1e-9` and base ≥ 2, `RewardMgr.add_value`
decomposes `v` as `rank = max 0 (int(logb 10 (|v| / base)) + 1)` — a fixed
base-10 logarithm with `int()` truncating toward zero, clamped to ≥ 0 —
and `param = v / base ^ rank`.  Values with `10·|v| ≤ base` collapse to
rank 0 (values in `(base/10, base)` get rank 1, not 0, because `int()`
truncates toward zero rather than flooring); the claimed
`floor (logb base (|v| / base)) + 1` formula agrees whenever `base = 10`
and `|v| ≥ base`.  `RewardManager.add_value` differs again: its `int()`
wraps `logb 10 (|v| / base) + 1`. -/
theorem decomposeValue_characterized (base : ℤ) (v : ℝ)
    (hb : 2 ≤ base) (hv : 1e-9 ≤ |v|) :
    (decomposeValue base v).1
        = max 0 (truncInt (Real.logb 10 (|v| / (base : ℝ))) + 1) ∧
    (decomposeValue base v).2 = v / (base : ℝ) ^ (decomposeValue base v).1 ∧
    0 ≤ (decomposeValue base v).1 ∧
    (10 * |v| ≤ (base : ℝ) → (decomposeValue base v).1 = 0) ∧
    (base = 10 → (base : ℝ) ≤ |v| →
      (decomposeValue base v).1
        = max 0 (⌊Real.logb (base : ℝ) (|v| / (base : ℝ))⌋ + 1)) ∧
    (decomposeValueMgr base v).1
        = max 0 (truncInt (Real.logb 10 (|v| / (base : ℝ)) + 1)) := by
  have hnl : ¬(|v| < 1e-9) := not_lt.mpr hv
  have hvpos : (0:ℝ) < |v| := by
    have : (0:ℝ) < 1e-9 := by norm_num
    linarith
  have hbpos : (0:ℝ) < (base : ℝ) := by
    have h2 : (2 : ℝ) ≤ (base : ℝ) := by exact_mod_cast hb
    linarith
  have hr1 : (decomposeValue base v).1
      = max 0 (truncInt (Real.logb 10 (|v| / (base : ℝ))) + 1) := by
    simp only [decomposeValue, if_neg hnl]
  refine ⟨hr1, ?_, ?_, ?_, ?_, ?_⟩
  · simp only [decomposeValue, if_neg hnl]
  · rw [hr1]
    exact le_max_left _ _
  · intro hsmall
    have hdiv : |v| / (base : ℝ) ≤ (10:ℝ)⁻¹ := by
      rw [div_le_iff₀ hbpos]
      rw [inv_mul_eq_div, le_div_iff₀ (by norm_num : (0:ℝ) < 10)]
      linarith
    have hlogle : Real.logb 10 (|v| / (base : ℝ)) ≤ -1 := by
      have hmon : Real.logb 10 (|v| / (base : ℝ)) ≤ Real.logb 10 ((10:ℝ)⁻¹) :=
        Real.logb_le_logb_of_le (by norm_num) (div_pos hvpos hbpos) hdiv
      rw [Real.logb_inv, Real.logb_self_eq_one (by norm_num)] at hmon
      exact hmon
    have hneg : Real.logb 10 (|v| / (base : ℝ)) < 0 := by linarith
    have htr : truncInt (Real.logb 10 (|v| / (base : ℝ))) ≤ -1 := by
      rw [truncInt, if_pos hneg]
      have hfl : (1:ℤ) ≤ ⌊-Real.logb 10 (|v| / (base : ℝ))⌋ := by
        rw [Int.le_floor]
        push_cast
        linarith
      omega
    rw [hr1]
    omega
  · intro hbase hvbig
    subst hbase
    have hcast : ((10 : ℤ) : ℝ) = (10 : ℝ) := by norm_num
    have hge1 : (1:ℝ) ≤ |v| / ((10:ℤ) : ℝ) := by
      rw [hcast, le_div_iff₀ (by norm_num : (0:ℝ) < 10)]
      rw [hcast] at hvbig
      linarith
    have h0 : (0:ℝ) ≤ Real.logb 10 (|v| / ((10:ℤ) : ℝ)) :=
      Real.logb_nonneg (by norm_num) hge1
    have htr : truncInt (Real.logb 10 (|v| / ((10:ℤ) : ℝ)))
        = ⌊Real.logb 10 (|v| / ((10:ℤ) : ℝ))⌋ := by
      rw [truncInt, if_neg (not_lt.mpr h0)]
    rw [hr1, htr, hcast]
  · simp only [decomposeValueMgr, if_neg hnl]

/-- Witness for `decomposeValue_characterized` at base 10 and `v = 5`. -/
theorem decomposeValue_characterized_witness :
    2 ≤ (10 : ℤ) ∧ (1e-9 : ℝ) ≤ |(5 : ℝ)| ∧
    (decomposeValue 10 5).2 = 5 / ((10 : ℤ) : ℝ) ^ (decomposeValue 10 5).1 :=
  ⟨by decide, by norm_num,
   (decomposeValue_characterized 10 5 (by decide) (by norm_num)).2.1⟩

/-- C8 counterexample: a term named `"raw"` overrides the totals sequence
in the dict built by `arrays()` (keyword-expansion order in the dict
literal), so `"raw"` does not hold the per-snapshot totals for every
trace.  Concretely: one snapshot pushed from an aggregate holding an
unnamed term of value 3 plus a term named `"raw"` of value 5 has raw
total 8, yet `arrays()["raw"]` is the named sequence `[5]`, not `[8]`. -/
theorem arrays_name_collision :
    (RewardTrace.push ⟨none, []⟩
        ⟨10, [⟨0, 3, 10, none⟩, ⟨0, 5, 10, some "raw"⟩],
         [("raw", ⟨0, 5, 10, some "raw"⟩)]⟩).arrays.lookup "raw"
      = some [some (5 : ℝ)] ∧
    ((RewardTrace.push ⟨none, []⟩
        ⟨10, [⟨0, 3, 10, none⟩, ⟨0, 5, 10, some "raw"⟩],
         [("raw", ⟨0, 5, 10, some "raw"⟩)]⟩).buf.map (fun sn => some sn.raw))
      = [some (8 : ℝ)] ∧
    (RewardTrace.push ⟨none, []⟩
        ⟨10, [⟨0, 3, 10, none⟩, ⟨0, 5, 10, some "raw"⟩],
         [("raw", ⟨0, 5, 10, some "raw"⟩)]⟩).arrays.lookup "raw"
      ≠ some ((RewardTrace.push ⟨none, []⟩
          ⟨10, [⟨0, 3, 10, none⟩, ⟨0, 5, 10, some "raw"⟩],
           [("raw", ⟨0, 5, 10, some "raw"⟩)]⟩).buf.map (fun sn => some sn.raw)) := by
  have hraw5 : Reward.raw ⟨0, 5, 10, some "raw"⟩ = 5 := by
    simp [Reward.raw]
  have hraw3 : Reward.raw ⟨0, 3, 10, none⟩ = 3 := by
    simp [Reward.raw]
  have hsnap : mkSnapshot ⟨10, [⟨0, 3, 10, none⟩, ⟨0, 5, 10, some "raw"⟩],
        [("raw", ⟨0, 5, 10, some "raw"⟩)]⟩
      = ⟨8, RewardMgr.total_log ⟨10, [⟨0, 3, 10, none⟩, ⟨0, 5, 10, some "raw"⟩],
            [("raw", ⟨0, 5, 10, some "raw"⟩)]⟩, [("raw", 5)]⟩ := by
    simp [mkSnapshot, RewardMgr.total_raw, hraw3, hraw5]
    norm_num
  have hpush : RewardTrace.push ⟨none, []⟩
        ⟨10, [⟨0, 3, 10, none⟩, ⟨0, 5, 10, some "raw"⟩],
         [("raw", ⟨0, 5, 10, some "raw"⟩)]⟩
      = ⟨none, [mkSnapshot ⟨10, [⟨0, 3, 10, none⟩, ⟨0, 5, 10, some "raw"⟩],
            [("raw", ⟨0, 5, 10, some "raw"⟩)]⟩]⟩ := rfl
  rw [hpush, hsnap]
  have hlk : (RewardTrace.arrays ⟨none,
        [⟨8, RewardMgr.total_log ⟨10, [⟨0, 3, 10, none⟩, ⟨0, 5, 10, some "raw"⟩],
            [("raw", ⟨0, 5, 10, some "raw"⟩)]⟩, [("raw", 5)]⟩]⟩).lookup "raw"
      = some [some (5 : ℝ)] := by
    simp [RewardTrace.arrays, dictInsert, List.lookup]
  refine ⟨hlk, by simp, ?_⟩
  rw [hlk]
  simp

/-- C8 amended: `arrays()` on an empty trace is the empty mapping; on a
nonempty trace its keys are exactly `"raw"`, `"log"` and the names of the
most recent snapshot, each name mapped to its per-snapshot sequence
(oldest to newest, `none` marking the NaN sentinel for snapshots lacking
the name) — and, provided no name of the latest snapshot collides with
`"raw"`/`"log"`, those two keys hold the per-snapshot totals (on a
collision the named sequence overrides the totals, as shown by the
counterexample). -/
theorem arrays_characterized (t : RewardTrace) (s : Snapshot)
    (hlast : t.buf.getLast? = some s)
    (hraw : s.named.lookup "raw" = none) (hlog : s.named.lookup "log" = none) :
    t.arrays.lookup "raw" = some (t.buf.map (fun sn => some sn.raw)) ∧
    t.arrays.lookup "log" = some (t.buf.map (fun sn => some sn.log)) ∧
    (∀ k, (s.named.lookup k).isSome = true →
        t.arrays.lookup k = some (t.buf.map (fun sn => sn.named.lookup k))) ∧
    (∀ k, s.named.lookup k = none → k ≠ "raw" → k ≠ "log" →
        t.arrays.lookup k = none) ∧
    (∀ t2 : RewardTrace, t2.buf = [] → t2.arrays = []) := by
  have harr : t.arrays
      = (s.named.map Prod.fst).foldl
          (fun d k => dictInsert d k (t.buf.map (fun sn => sn.named.lookup k)))
          (dictInsert (dictInsert [] "raw" (t.buf.map (fun sn => some sn.raw)))
            "log" (t.buf.map (fun sn => some sn.log))) := by
    simp only [RewardTrace.arrays, hlast]
  have hd1 : dictInsert (dictInsert [] "raw" (t.buf.map (fun sn => some sn.raw)))
        "log" (t.buf.map (fun sn => some sn.log))
      = [("raw", t.buf.map (fun sn => some sn.raw)),
         ("log", t.buf.map (fun sn => some sn.log))] := by
    simp [dictInsert]
  have hmemraw : "raw" ∉ s.named.map Prod.fst := by
    intro hm
    have := (lookup_isSome_iff_mem_keys s.named "raw").mpr hm
    rw [hraw] at this
    cases this
  have hmemlog : "log" ∉ s.named.map Prod.fst := by
    intro hm
    have := (lookup_isSome_iff_mem_keys s.named "log").mpr hm
    rw [hlog] at this
    cases this
  refine ⟨?_, ?_, ?_, ?_, ?_⟩
  · rw [harr, lookup_foldl_dictInsert_not_mem _ _ _ _ hmemraw, hd1]
    simp [List.lookup]
  · rw [harr, lookup_foldl_dictInsert_not_mem _ _ _ _ hmemlog, hd1]
    simp [List.lookup]
  · intro k hk
    have hmem : k ∈ s.named.map Prod.fst :=
      (lookup_isSome_iff_mem_keys s.named k).mp hk
    rw [harr]
    exact lookup_foldl_dictInsert_mem
      (fun k => t.buf.map (fun sn => sn.named.lookup k)) _ _ k hmem
  · intro k hk hkraw hklog
    have hmem : k ∉ s.named.map Prod.fst := by
      intro hm
      have := (lookup_isSome_iff_mem_keys s.named k).mpr hm
      rw [hk] at this
      cases this
    rw [harr, lookup_foldl_dictInsert_not_mem _ _ _ _ hmem, hd1]
    rw [lookup_cons_ne _ _ _ _ (Ne.symm hkraw), lookup_cons_ne _ _ _ _ (Ne.symm hklog)]
    rfl
  · intro t2 h2
    simp [RewardTrace.arrays, h2]

/-- Witness for `arrays_characterized` on a one-snapshot trace with a
single named value `"a"`. -/
theorem arrays_characterized_witness :
    ((⟨none, [⟨10, 1, [("a", (5:ℝ))]⟩]⟩ : RewardTrace).buf.getLast?
        = some ⟨10, 1, [("a", (5:ℝ))]⟩) ∧
    (List.lookup "raw" [("a", (5:ℝ))] = none) ∧
    (List.lookup "log" [("a", (5:ℝ))] = none) ∧
    (⟨none, [⟨10, 1, [("a", (5:ℝ))]⟩]⟩ : RewardTrace).arrays.lookup "raw"
      = some ((⟨none, [⟨10, 1, [("a", (5:ℝ))]⟩]⟩ : RewardTrace).buf.map
          (fun sn => some sn.raw)) :=
  ⟨rfl, rfl, rfl,
   (arrays_characterized ⟨none, [⟨10, 1, [("a", (5:ℝ))]⟩]⟩ ⟨10, 1, [("a", (5:ℝ))]⟩
      rfl rfl rfl).1⟩

/-! ## Shape of the compressed aggregate -/

theorem filter_decide_eq_of_nodup (l : List String) (a : String)
    (hnd : l.Nodup) (ha : a ∈ l) :
    l.filter (fun x => x = a) = [a] := by
  induction l with
  | nil => cases ha
  | cons x rest ih =>
      rcases List.nodup_cons.mp hnd with ⟨hx, hrest⟩
      by_cases hxa : x = a
      · subst hxa
        have hnotin : rest.filter (fun y => decide (y = x)) = [] := by
          rw [List.filter_eq_nil_iff]
          intro y hy
          simp only [decide_eq_true_eq]
          intro he
          subst he
          exact hx hy
        rw [List.filter_cons_of_pos (by simp)]
        rw [hnotin]
      · have hmem : a ∈ rest := by
          rcases List.mem_cons.mp ha with h | h
          · exact absurd h.symm hxa
          · exact h
        rw [List.filter_cons_of_neg (by simp [hxa])]
        exact ih hrest hmem

theorem toRewardMgr_fold_shape (t : RewardTrace) (base : ℤ) (order : List String)
    (hnd : order.Nodup) (hne : t.buf.isEmpty = false) :
    (t.toRewardMgr base order).base = base ∧
    (t.toRewardMgr base order).items
      = order.map (fun n => valueReward base (t.nameTotal n / (t.buf.length : ℝ)) (some n)) ∧
    (t.toRewardMgr base order).names
      = order.map (fun n => (n, valueReward base (t.nameTotal n / (t.buf.length : ℝ)) (some n))) := by
  have hunf : t.toRewardMgr base order
      = order.foldl (fun m name =>
          (m.addValue (t.nameTotal name / (t.buf.length : ℝ)) none 1 1.5 (some name)).1)
        ⟨base, [], []⟩ := by
    simp [RewardTrace.toRewardMgr, hne]
  have hfold := foldl_addValue_fresh (fun n => t.nameTotal n / (t.buf.length : ℝ))
      order ⟨base, [], []⟩ hnd (fun n _ => rfl)
  rw [hunf]
  refine ⟨hfold.1, ?_, ?_⟩
  · rw [hfold.2.1]
    simp
  · rw [hfold.2.2]
    simp

/-- C1 amended: compressing a trace with `to_reward_mgr` yields, for every
`set`-iteration order over the name union: the fresh empty aggregate when
the trace is empty; otherwise exactly one term per union name, added via
`add_value`, whose raw value is the arithmetic mean of that name's value
over all snapshots (absent names contributing 0) — except that a mean of
magnitude below 1e-9 is flushed to raw value 0 by `add_value`.  The terms
appear in the iteration order, which the trace contents do not determine
(Python `set` iteration over strings; see the counterexample). -/
theorem toRewardMgr_mean_correct (t : RewardTrace) (base : ℤ) (order : List String)
    (hb : 2 ≤ base) (ho : order.Perm t.allNames) :
    (t.buf = [] → t.toRewardMgr base order = ⟨base, [], []⟩) ∧
    ((t.toRewardMgr base order).items.map Reward.name = order.map some) ∧
    (∀ name ∈ t.allNames,
      ((t.toRewardMgr base order).items.filter (fun r => r.name = some name)).length = 1 ∧
      (t.toRewardMgr base order).getValue name
        = some (if |t.nameMean name| < 1e-9 then 0 else t.nameMean name) ∧
      t.nameMean name
        = (t.buf.map (fun sn => ((sn.named.lookup name).getD 0))).sum
            / (t.buf.length : ℝ)) := by
  have hAllNodup : t.allNames.Nodup := List.nodup_dedup _
  have hond : order.Nodup := (List.Perm.nodup_iff ho).mpr hAllNodup
  by_cases hempty : t.buf = []
  · have hAllNil : t.allNames = [] := by
      simp [RewardTrace.allNames, hempty]
    have hordNil : order = [] := List.Perm.eq_nil (hAllNil ▸ ho)
    refine ⟨fun _ => ?_, ?_, ?_⟩
    · simp [RewardTrace.toRewardMgr, hempty]
    · simp [RewardTrace.toRewardMgr, hempty, hordNil]
    · intro name hname
      rw [hAllNil] at hname
      cases hname
  · have hne : t.buf.isEmpty = false := by
      cases hbuf : t.buf with
      | nil => exact absurd hbuf hempty
      | cons x xs => exact List.isEmpty_cons
    have hshape := toRewardMgr_fold_shape t base order hond hne
    refine ⟨fun h => absurd h hempty, ?_, ?_⟩
    · rw [hshape.2.1, List.map_map]
      have hcomp : (Reward.name ∘ fun n =>
          valueReward base (t.nameTotal n / (t.buf.length : ℝ)) (some n))
          = fun n => some n := by
        funext n
        simp [valueReward]
      rw [hcomp]
    · intro name hname
      have hmem : name ∈ order := ho.mem_iff.mpr hname
      refine ⟨?_, ?_, ?_⟩
      · rw [hshape.2.1, List.filter_map, List.length_map]
        have hpred : ((fun r : Reward => decide (r.name = some name)) ∘ fun n =>
            valueReward base (t.nameTotal n / (t.buf.length : ℝ)) (some n))
            = fun n => decide (n = name) := by
          funext n
          simp [valueReward]
        rw [hpred, filter_decide_eq_of_nodup order name hond hmem]
        rfl
      · rw [RewardMgr.getValue, hshape.2.2]
        rw [lookup_map_self (fun n =>
          valueReward base (t.nameTotal n / (t.buf.length : ℝ)) (some n)) order name hmem]
        rw [Option.map_some']
        rw [valueReward_raw base _ (some name) hb]
        rfl
      · rw [RewardTrace.nameMean, RewardTrace.nameTotal, foldl_add_eq_sum]
        rw [zero_add]

/-- Witness for `toRewardMgr_mean_correct` on a one-snapshot trace with
one named value. -/
theorem toRewardMgr_mean_correct_witness :
    2 ≤ (10 : ℤ) ∧
    List.Perm ["a"] (RewardTrace.allNames ⟨none, [⟨5, 1, [("a", (5:ℝ))]⟩]⟩) ∧
    ((RewardTrace.toRewardMgr ⟨none, [⟨5, 1, [("a", (5:ℝ))]⟩]⟩ 10 ["a"]).items.map
        Reward.name = ["a"].map some) := by
  have hperm : List.Perm ["a"] (RewardTrace.allNames ⟨none, [⟨5, 1, [("a", (5:ℝ))]⟩]⟩) := by
    rw [show RewardTrace.allNames ⟨none, [⟨5, 1, [("a", (5:ℝ))]⟩]⟩ = ["a"] from rfl]
  exact ⟨by decide, hperm,
    (toRewardMgr_mean_correct ⟨none, [⟨5, 1, [("a", (5:ℝ))]⟩]⟩ 10 ["a"]
      (by decide) hperm).2.1⟩

/-- C1 counterexample: the iteration order over the name union is NOT
determined by the trace — both `["a", "b"]` and `["b", "a"]` are valid
enumerations of the name union of the same one-snapshot trace (Python
`set` iteration may produce either, depending on the per-process string
hash seed), and `to_reward_mgr` maps them to different aggregates, so its
output is not deterministic across runs. -/
theorem toRewardMgr_order_dependent :
    List.Perm ["a", "b"]
      (RewardTrace.allNames ⟨none, [⟨8, 0, [("a", (5:ℝ)), ("b", (3:ℝ))]⟩]⟩) ∧
    List.Perm ["b", "a"]
      (RewardTrace.allNames ⟨none, [⟨8, 0, [("a", (5:ℝ)), ("b", (3:ℝ))]⟩]⟩) ∧
    RewardTrace.toRewardMgr ⟨none, [⟨8, 0, [("a", (5:ℝ)), ("b", (3:ℝ))]⟩]⟩ 10 ["a", "b"]
      ≠ RewardTrace.toRewardMgr ⟨none, [⟨8, 0, [("a", (5:ℝ)), ("b", (3:ℝ))]⟩]⟩ 10
          ["b", "a"] := by
  have hall : RewardTrace.allNames ⟨none, [⟨8, 0, [("a", (5:ℝ)), ("b", (3:ℝ))]⟩]⟩
      = ["a", "b"] := rfl
  refine ⟨by rw [hall], by rw [hall]; exact List.Perm.swap "a" "b" [], ?_⟩
  intro heq
  have hitems : ∀ o : List String, o.Nodup →
      (RewardTrace.toRewardMgr ⟨none, [⟨8, 0, [("a", (5:ℝ)), ("b", (3:ℝ))]⟩]⟩ 10
          o).items.map Reward.name = o.map some := by
    intro o hnd
    have hshape := toRewardMgr_fold_shape
      ⟨none, [⟨8, 0, [("a", (5:ℝ)), ("b", (3:ℝ))]⟩]⟩ 10 o hnd List.isEmpty_cons
    rw [hshape.2.1, List.map_map]
    have hcomp : (Reward.name ∘ fun n => valueReward 10
        (RewardTrace.nameTotal ⟨none, [⟨8, 0, [("a", (5:ℝ)), ("b", (3:ℝ))]⟩]⟩ n
          / ((RewardTrace.buf ⟨none, [⟨8, 0, [("a", (5:ℝ)), ("b", (3:ℝ))]⟩]⟩).length : ℝ))
        (some n)) = fun n => some n := by
      funext n
      simp [valueReward]
    rw [hcomp]
  have ha := hitems ["a", "b"] (by decide)
  have hb2 := hitems ["b", "a"] (by decide)
  rw [heq, hb2] at ha
  exact absurd ha (by decide)
